import Mathlib

/-!
Verification development for the CaShield real-time monitoring pipeline.

Shallow embedding of:
- `scripts/rt_stream.py` (day-log append/replace, FAST/FINAL utterance handling),
- `src/kws/fuzzy.py` (fuzzy keyword detection),
- `src/kws/keywords.py` (keyword/severity configuration loader),
- `src/llm/client_gemini.py` and `src/llm/queue.py` (retrying summarization worker),
- `src/llm/windowing.py` (conversation-window extraction),
- `src/vad/webrtc.py` (VAD segmenter state machine).

External capabilities (speech classifier, kana normalization, similarity
scoring, the Gemini backend) are taken as parameters, mirroring their
black-box treatment in the system design.
-/

namespace CaShield

/-! ### Day log model (`scripts/rt_stream.py`)

A well-formed log line is
`[ts] who: [stage] [ID:entryId] text [NG: hits]`, produced only by
`_append_log_line`.  We model a line by its fields; the regex in
`_replace_log_line` keys on the role marker `who` and the `[ID:...]` tag,
which at this granularity is field equality on `who` and `entryId`. -/

structure LogLine where
  ts : String
  who : String
  stage : String
  entryId : String
  text : String
  hits : List String
deriving DecidableEq, Repr

/-- `"店員" if role == "clerk" else "客"` in both append and replace. -/
def whoOfRole (role : String) : String :=
  if role = "clerk" then "店員" else "客"

/-- `_append_log_line`: append one line to the day log. -/
def append_log_line (log : List LogLine) (ts role stage entryId text : String)
    (hits : List String) : List LogLine :=
  log ++ [⟨ts, whoOfRole role, stage, entryId, text, hits⟩]

/-- The match test of the replacement regex
`^\[(ts)\] who: .*\[ID:entryId\].*$` on a well-formed line. -/
def lineMatches (who entryId : String) (l : LogLine) : Bool :=
  l.who = who && l.entryId = entryId

/-- The loop body of `_replace_log_line`: replace the first matching line,
keeping its timestamp; `none` when no line matches (returns `False`). -/
def replaceFirst (who entryId newStage text : String) (hits : List String) :
    List LogLine → Option (List LogLine)
  | [] => none
  | l :: ls =>
    if lineMatches who entryId l then
      some (⟨l.ts, who, newStage, entryId, text, hits⟩ :: ls)
    else
      (replaceFirst who entryId newStage text hits ls).map (l :: ·)

/-- `_replace_log_line` over the current day file content (a missing file
behaves like the empty list: no match, `False`). -/
def replace_log_line (log : List LogLine) (entryId role newStage text : String)
    (hits : List String) : List LogLine × Bool :=
  match replaceFirst (whoOfRole role) entryId newStage text hits log with
  | some log2 => (log2, true)
  | none => (log, false)

/-- Modelled from the spec: `src/config/filter.py` (imported by
`scripts/rt_stream.py` as `is_banned` / `BANNED_HALLUCINATIONS`) is not under
`src/`.  The spec describes the HallucinationFilter as rejecting the known
model-hallucination boilerplate strings, i.e. membership of the text in the
banned set. -/
def is_banned (banned : List String) (text : String) : Bool :=
  banned.contains text

/-- Count of lines a FINAL result for `(role, entryId)` can target. -/
def matchCount (who entryId : String) (log : List LogLine) : Nat :=
  log.countP (fun l => lineMatches who entryId l)

/-! ### FAST-stage handling of one utterance (`main` in `scripts/rt_stream.py`)

After `transcribe_fast` returns `fast_text`, the loop body either discards
the utterance (hallucination filter) or: runs the keyword detector once,
allocates an entry id, appends a FAST line, and submits the FINAL pass when
`(not FINAL_ON_HIT_ONLY) or hits`.  We record the per-utterance effects. -/

structure FastOutcome where
  log : List LogLine
  idCounter : Nat
  kwsEvalCount : Nat
  finalSubmitted : Bool
deriving Repr

/-- `_next_entry_id`: increment modulo 1000000 (the 6-digit id). -/
def next_entry_id (counter : Nat) : Nat := (counter + 1) % 1000000

/-- The FAST-stage section of the per-utterance loop body, from the
hallucination filter to the FINAL submission decision.  `detectF` is the
`kws.detect` evaluation on the FAST text. -/
def processFast (banned : List String) (detectF : String → List String)
    (finalOnHitOnly : Bool) (log : List LogLine) (idCounter : Nat)
    (ts fastText : String) : FastOutcome :=
  if is_banned banned fastText then
    ⟨log, idCounter, 0, false⟩
  else
    let hits := detectF fastText
    let eid := next_entry_id idCounter
    let log2 := append_log_line log ts "customer" "FAST" (toString eid) fastText hits
    ⟨log2, eid, 1, !finalOnHitOnly || !hits.isEmpty⟩

/-! ### FINAL completion handler `_on_done` (`scripts/rt_stream.py`)

The future result (or the exception turned into a `<FINAL_ERROR: ...>`
marker) is filtered again; when not banned, the detector runs on the FINAL
text and the log line with the same entry id is replaced, falling back to a
fresh append when no line matched.  `nowTs` is the timestamp an appended
fallback line would get. -/

def finalTextOf (result : Except String String) : String :=
  match result with
  | .ok t => t
  | .error e => "<FINAL_ERROR: " ++ e ++ ">"

def on_done (banned : List String) (detectF : String → List String)
    (eid : String) (result : Except String String) (nowTs : String)
    (log : List LogLine) : List LogLine :=
  if is_banned banned (finalTextOf result) then log
  else
    match replace_log_line log eid "customer" "FINAL" (finalTextOf result)
        (detectF (finalTextOf result)) with
    | (log2, true) => log2
    | (log2, false) =>
      append_log_line log2 nowTs "customer" "FINAL" eid (finalTextOf result)
        (detectF (finalTextOf result))

/-! ### Keyword configuration loader (`src/kws/keywords.py`)

`load_keywords_with_severity` reads `config/keywords.txt`; a missing file
yields the built-in defaults.  An existing file is scanned for
`levelN=[...]` blocks (case-insensitive, multi-line, half/full-width comma
separated); if none is found, the one-word-per-line legacy format with
default severity 2 applies.  The file system is modelled as
`Option String` (`none` = `path.exists()` is false).  The severity dict is
an insertion-ordered association list with update-in-place semantics. -/

def hasKey (m : List (String × Nat)) (w : String) : Bool :=
  m.any (fun p => p.1 = w)

def setSev (m : List (String × Nat)) (w : String) (sev : Nat) :
    List (String × Nat) :=
  if hasKey m w then m.map (fun p => if p.1 = w then (w, sev) else p)
  else m ++ [(w, sev)]

/-- Leading-whitespace skip for the `\s*` pieces of the level-head regex. -/
def skipWs : List Char → List Char
  | [] => []
  | c :: cs => if c.isWhitespace then skipWs cs else c :: cs

/-- Greedy `\d+` with its accumulated value. -/
def readDigits (acc : Nat) : List Char → Nat × List Char
  | [] => (acc, [])
  | c :: cs =>
    if c.isDigit then readDigits (acc * 10 + (c.toNat - 48)) cs
    else (acc, c :: cs)

/-- Match `level\s*(\d+)\s*=\s*\[` (IGNORECASE) at the head of the text,
returning the severity and the text after the opening bracket. -/
def matchLevelHead : List Char → Option (Nat × List Char)
  | c1 :: c2 :: c3 :: c4 :: c5 :: rest =>
    if c1.toLower = 'l' && c2.toLower = 'e' && c3.toLower = 'v'
        && c4.toLower = 'e' && c5.toLower = 'l' then
      match skipWs rest with
      | d :: ds =>
        if d.isDigit then
          let (sev, r2) := readDigits 0 (d :: ds)
          match skipWs r2 with
          | '=' :: r4 =>
            match skipWs r4 with
            | '[' :: r6 => some (sev, r6)
            | _ => none
          | _ => none
        else none
      | [] => none
    else none
  | _ => none

/-- `level_head.search(text, i)`: first position from which the head
pattern matches. -/
def searchLevelHead : List Char → Option (Nat × List Char)
  | [] => none
  | c :: cs =>
    match matchLevelHead (c :: cs) with
    | some r => some r
    | none => searchLevelHead cs

/-- `text.find(']', j)`: split off the block body at the first closing
bracket; `none` when there is none. -/
def splitAtClose : List Char → Option (List Char × List Char)
  | [] => none
  | c :: cs =>
    if c = ']' then some ([], cs)
    else (splitAtClose cs).map (fun p => (c :: p.1, p.2))

/-- `re.split(r"[,、]", body)`. -/
def splitCommasAux (cur : List Char) : List Char → List (List Char)
  | [] => [cur.reverse]
  | c :: cs =>
    if c = ',' || c = '、' then cur.reverse :: splitCommasAux [] cs
    else splitCommasAux (c :: cur) cs

def splitCommas (cs : List Char) : List (List Char) := splitCommasAux [] cs

def stripWs (cs : List Char) : List Char :=
  ((cs.dropWhile Char.isWhitespace).reverse.dropWhile Char.isWhitespace).reverse

def stripBrackets (cs : List Char) : List Char :=
  ((cs.dropWhile (fun c => c = '[' || c = ']')).reverse.dropWhile
    (fun c => c = '[' || c = ']')).reverse

/-- The block-body loop: `w = raw.strip().strip("[]")`, skip empties,
keep first-seen order, set `sev_map[w] = sev`. -/
def addWord (sev : Nat) (acc : List String × List (String × Nat))
    (raw : List Char) : List String × List (String × Nat) :=
  let w := String.mk (stripBrackets (stripWs raw))
  if w = "" then acc
  else
    let kws := if hasKey acc.2 w then acc.1 else acc.1 ++ [w]
    (kws, setSev acc.2 w sev)

/-- The `while i < n` scan over `levelN=[...]` blocks.  The fuel is the
remaining text length plus one; each iteration consumes at least one
character, so the initial fuel is never exhausted. -/
def levelLoop : Nat → List Char → Bool →
    List String × List (String × Nat) →
    Bool × (List String × List (String × Nat))
  | 0, _, anyLevel, acc => (anyLevel, acc)
  | fuel + 1, cs, anyLevel, acc =>
    match searchLevelHead cs with
    | none => (anyLevel, acc)
    | some (sev, afterBracket) =>
      match splitAtClose afterBracket with
      | none => (true, acc)
      | some (body, rest) =>
        levelLoop fuel rest true ((splitCommas body).foldl (addWord sev) acc)

/-- `text.splitlines()`; separators `\n` and `\r` (a `\r\n` pair yields an
extra empty piece which the subsequent non-empty filter removes, matching
Python after the filter). -/
def splitLinesAux (cur : List Char) : List Char → List (List Char)
  | [] => [cur.reverse]
  | c :: cs =>
    if c = '\n' || c = '\r' then cur.reverse :: splitLinesAux [] cs
    else splitLinesAux (c :: cur) cs

/-- The legacy one-word-per-line loop with default severity 2. -/
def addLineWord (acc : List String × List (String × Nat)) (w : String) :
    List String × List (String × Nat) :=
  let kws := if hasKey acc.2 w then acc.1 else acc.1 ++ [w]
  (kws, setSev acc.2 w 2)

def parseKeywordsText (text : String) : List String × List (String × Nat) :=
  let cs := text.data
  let (anyLevel, acc) := levelLoop (cs.length + 1) cs false ([], [])
  if anyLevel then acc
  else
    let lines :=
      ((splitLinesAux [] cs).map (fun l => String.mk (stripWs l))).filter
        (fun s => s ≠ "")
    lines.foldl addLineWord ([], [])

/-- `load_keywords_with_severity`: `none` is the missing-file branch with
the built-in default NG words at the default severity 2. -/
def load_keywords_with_severity (file : Option String) :
    List String × List (String × Nat) :=
  match file with
  | none =>
    let defaults := ["土下座", "無能", "死ね"]
    (defaults, defaults.map (fun w => (w, 2)))
  | some text => parseKeywordsText text

/-! ### Fuzzy keyword detection (`src/kws/fuzzy.py`)

`FuzzyKWS.detect` kana-normalizes the corpus text, skips empty or too-short
normalized keywords, scores the rest with rapidfuzz `partial_ratio`, and
returns the original keywords whose score reaches the threshold.  The kana
normalizer (`_to_hiragana`, a pykakasi wrapper) and the similarity scorer
are external capabilities, passed as `toHira` and `pr`. -/

def detect (pr : String → String → Nat) (toHira : String → String)
    (keywords : List String) (threshold minHiraLen : Nat) (text : String) :
    List String :=
  let hira := toHira text
  keywords.filter (fun orig =>
    let hiraKw := toHira orig
    !(hiraKw = "") && decide (minHiraLen ≤ hiraKw.length)
      && decide (threshold ≤ pr hiraKw hira))

/-! ### Conversation windowing (`src/llm/windowing.py`)

`build_window` first maps `parse_line` over the raw lines; we embed the
function over the parsed triples `(timestamp | absent, role, text)`
directly, with timestamps as integer epoch seconds (the code only compares
them and subtracts, via `total_seconds`). -/

structure PLine where
  ts : Option Int
  role : String
  text : String
deriving DecidableEq, Repr

/-- `parsed[a:b]` (slice; `a ≤ b` in every use below). -/
def slice (parsed : List PLine) (a b : Nat) : List PLine :=
  (parsed.drop a).take (b - a)

/-- `estimate_tokens_ja`: Python computes `max(1, int(len(s) * 0.66))` in
floating point; embedded as the rational `len * 66 / 100`, which agrees at
every length used in the theorems below. -/
def estimate_tokens_ja (s : String) : Nat :=
  max 1 (s.length * 66 / 100)

/-- `window_duration(a, b)`: span of the timestamps present in
`parsed[a:b+1]`, or 3 seconds per turn when none is present. -/
def window_duration (parsed : List PLine) (a b : Nat) : Int :=
  let times := (slice parsed a (b + 1)).filterMap (fun l => l.ts)
  match times with
  | [] => ((b + 1 - a : Nat) : Int) * 3
  | t :: ts => ts.foldl max t - ts.foldl min t

/-- `tokens_in(a, b)`: token estimate of the joined texts of
`parsed[a:b+1]`. -/
def tokens_in (parsed : List PLine) (a b : Nat) : Nat :=
  estimate_tokens_ja (String.join ((slice parsed a (b + 1)).map (fun l => l.text)))

/-- The *expand-while-short* loop of `build_window`.  Fueled: each
non-terminating iteration moves `lo` down or `hi` up within `[0, n-1]`, so
the `lo + n + 1` fuel supplied by `build_window` is never exhausted. -/
def expandLoop (dur : Nat → Nat → Int) (minSec : Int) (n : Nat) :
    Nat → Nat → Nat → Nat × Nat
  | 0, lo, hi => (lo, hi)
  | fuel + 1, lo, hi =>
    if dur lo hi < minSec then
      if 0 < lo then
        let lo2 := lo - 1
        if minSec ≤ dur lo2 hi then (lo2, hi)
        else
          let hi2 := if hi < n - 1 then hi + 1 else hi
          if lo2 = 0 ∧ hi2 = n - 1 then (lo2, hi2)
          else expandLoop dur minSec n fuel lo2 hi2
      else
        let hi2 := if hi < n - 1 then hi + 1 else hi
        if lo = 0 ∧ hi2 = n - 1 then (lo, hi2)
        else expandLoop dur minSec n fuel lo hi2
    else (lo, hi)

/-- The two *contract-while-too-big* loops (time bound and token bound)
share this shape: drop a line from whichever side is farther from the
anchor while `tooBig` holds and at least two lines remain.  Each iteration
shrinks `hi - lo` by one, so fuel `hi - lo + 1` is exact. -/
def shrinkLoop (tooBig : Nat → Nat → Bool) (i : Nat) :
    Nat → Nat → Nat → Nat × Nat
  | 0, lo, hi => (lo, hi)
  | fuel + 1, lo, hi =>
    if tooBig lo hi ∧ 1 ≤ hi - lo then
      if hi - i < i - lo then shrinkLoop tooBig i fuel (lo + 1) hi
      else shrinkLoop tooBig i fuel lo (hi - 1)
    else (lo, hi)

structure Snippet where
  ng_word : String
  anchor_time : Option Int
  turns : List PLine
  lo_index : Nat
  hi_index : Nat
deriving DecidableEq, Repr

/-- `build_window(lines, ng_index, ng_word, min_sec, max_sec, max_tokens)`.
The displayed `anchor_time` keeps the trigger line's timestamp (`strftime`
formatting is display-only).  The code indexes `parsed[ng_index]`; the
theorems below assume `ng_index < lines.length`, where `getD` coincides. -/
def build_window (lines : List PLine) (ng_index : Nat) (ng_word : String)
    (min_sec max_sec : Int) (max_tokens : Nat) : Snippet :=
  let n := lines.length
  let lo0 := ng_index - 2
  let hi0 := min (n - 1) (ng_index + 2)
  let dur := fun a b => window_duration lines a b
  let p1 := expandLoop dur min_sec n (lo0 + n + 1) lo0 hi0
  let p2 := shrinkLoop (fun a b => decide (max_sec < dur a b)) ng_index
    (p1.2 - p1.1 + 1) p1.1 p1.2
  let p3 := shrinkLoop (fun a b => decide (max_tokens < tokens_in lines a b)) ng_index
    (p2.2 - p2.1 + 1) p2.1 p2.2
  let anchor := (lines.getD ng_index ⟨none, "customer", ""⟩).ts
  ⟨ng_word, anchor, slice lines p3.1 (p3.2 + 1), p3.1, p3.2⟩

/-! ### Summarization backend retry loop (`src/llm/client_gemini.py`)

`GeminiSummarizer.summarize` loops: call the backend; any exception
(network error, empty response, JSON parse error, missing required key)
counts as one failed attempt; after `max_retries` failed attempts the next
failure raises.  Attempt outcomes are a function from the 0-based call
index to `Option LLMResult` (`none` = that call failed).  The exponential
backoff sleeps are timing-only and are not modelled. -/

structure LLMResult where
  ng_word : String
  turns : List PLine
  summary : String
  severity : Nat
  action : String
  comfort : String
deriving DecidableEq, Repr

/-- The `while True` retry loop.  `attempt` is the count of failures so
far, as in the code; a failure with `attempt + 1 > max_retries` raises
(`none`).  Fuel `max_retries + 1` covers the at most `max_retries + 1`
backend calls. -/
def summarizeFrom (maxRetries : Nat) (outcome : Nat → Option LLMResult) :
    Nat → Nat → Option LLMResult
  | _, 0 => none
  | attempt, fuel + 1 =>
    match outcome attempt with
    | some v => some v
    | none =>
      if maxRetries < attempt + 1 then none
      else summarizeFrom maxRetries outcome (attempt + 1) fuel

def summarize (maxRetries : Nat) (outcome : Nat → Option LLMResult) :
    Option LLMResult :=
  summarizeFrom maxRetries outcome 0 (maxRetries + 1)

/-! ### Summarization job runner (`src/llm/queue.py`) -/

structure Job where
  date : String
  lines : List PLine
  ng_index : Nat
  ng_word : String
  severity : Nat
deriving DecidableEq, Repr

structure WindowConfig where
  min_sec : Int
  max_sec : Int
  max_tokens : Nat
deriving DecidableEq, Repr

/-- Code-default `WindowConfig()`. -/
def defaultWindowConfig : WindowConfig := ⟨12, 30, 512⟩

/-- The JSONL record `_process` persists on success: `ng_word` prefers the
trigger over the backend echo (`job.ng_word or res.ng_word`), severity is
the keyword-configuration severity (`job.severity if job.severity else 2`),
never the backend's. -/
structure SummaryRecord where
  date : String
  anchor_time : Option Int
  ng_word : String
  turns : List PLine
  summary : String
  severity : Nat
  action : String
  comfort : String
  line_range : Nat × Nat
deriving DecidableEq, Repr

def successRecord (win : WindowConfig) (job : Job) (res : LLMResult) :
    SummaryRecord :=
  let snip := build_window job.lines job.ng_index job.ng_word
    win.min_sec win.max_sec win.max_tokens
  { date := job.date
    anchor_time := snip.anchor_time
    ng_word := if job.ng_word ≠ "" then job.ng_word else res.ng_word
    turns := res.turns
    summary := res.summary
    severity := if job.severity ≠ 0 then job.severity else 2
    action := res.action
    comfort := res.comfort
    line_range := (snip.lo_index, snip.hi_index) }

/-- `_process`: build the window, call the backend with retries, and build
the success record; `none` means `_process` raised (backend exhausted its
attempts). -/
def processJob (maxRetries : Nat) (outcome : Nat → Option LLMResult)
    (win : WindowConfig) (job : Job) : Option SummaryRecord :=
  (summarize maxRetries outcome).map (successRecord win job)

/-- The persisted artifacts of one output directory: the per-day
`{date}.jsonl` success lines, the per-job `errors/{date}-{idx}.log` files,
and the per-day `{date}.errors.log` entries. -/
structure DayFiles where
  jsonl : List SummaryRecord
  perJobErrors : List Nat
  perDayErrorLines : Nat
deriving DecidableEq, Repr

/-- One `worker` iteration: pop a job, run `_process`; on success append
exactly one JSONL record, on exception `_write_error` writes one per-job
error artifact and appends one per-day error-log entry.  Either way the
job is `task_done` and never re-enqueued. -/
def workerStep (maxRetries : Nat) (outcome : Nat → Option LLMResult)
    (win : WindowConfig) (queue : List Job) (fs : DayFiles) :
    List Job × DayFiles :=
  match queue with
  | [] => ([], fs)
  | job :: rest =>
    match processJob maxRetries outcome win job with
    | some rec2 => (rest, { fs with jsonl := fs.jsonl ++ [rec2] })
    | none =>
      (rest, { fs with
        perJobErrors := fs.perJobErrors ++ [job.ng_index]
        perDayErrorLines := fs.perDayErrorLines + 1 })

/-! ### VAD segmenter (`src/vad/webrtc.py`)

`WebRTCVADSegmenter.feed` slices the byte stream into fixed-size frames
(partial trailing bytes stay in `_residual`) and runs the per-frame state
machine; we embed the machine at frame granularity.  The per-frame speech
classification is a pure function of the frame bytes (webrtcvad or the
energy fallback), so a frame is modelled as its identity together with its
classification: `Frame = (id, isSpeech)`.  The ring deque stores
`(frame, is_speech)` pairs, which at this granularity is the frame itself. -/

def Frame : Type := Nat × Bool
deriving instance DecidableEq, Repr for Frame

def Frame.isSpeech (f : Frame) : Bool := f.2

/-- Derived frame-count configuration: `prev_frames`, `post_frames` (both
`max(1, ms // frame_ms)`) and `max_frames = max_utterance_ms // frame_ms`. -/
structure SegCfg where
  prevFrames : Nat
  postFrames : Nat
  maxFrames : Nat
deriving DecidableEq, Repr

/-- The constructor's frame-count computation from millisecond settings. -/
def SegCfg.ofMs (prevMs postMs maxUtteranceMs frameMs : Nat) : SegCfg :=
  ⟨max 1 (prevMs / frameMs), max 1 (postMs / frameMs), maxUtteranceMs / frameMs⟩

/-- `l[-n:]` for `n ≥ 1` (the only use has `n = prev_frames ≥ 1`). -/
def takeRight (n : Nat) (l : List Frame) : List Frame :=
  l.drop (l.length - n)

/-- `deque(maxlen=prev_frames+post_frames).append`. -/
def ringAppend (maxlen : Nat) (r : List Frame) (f : Frame) : List Frame :=
  let r2 := r ++ [f]
  if maxlen < r2.length then r2.drop (r2.length - maxlen) else r2

structure SegState where
  ring : List Frame
  collecting : Bool
  current : List Frame
  postSilence : Nat
deriving DecidableEq, Repr

def initSegState : SegState := ⟨[], false, [], 0⟩

/-- One iteration of the frame loop in `feed`: push the frame into the
ring, then branch on its classification exactly as the code does.  Returns
the next state and the utterances emitted by this frame (`out.append`). -/
def stepFrame (cfg : SegCfg) (s : SegState) (f : Frame) :
    SegState × List (List Frame) :=
  let ring := ringAppend (cfg.prevFrames + cfg.postFrames) s.ring f
  if f.isSpeech then
    if s.collecting then
      let current := s.current ++ [f]
      if cfg.maxFrames ≤ current.length then
        (⟨ring, false, [], 0⟩, [current])
      else
        (⟨ring, true, current, s.postSilence⟩, [])
    else
      let past := takeRight cfg.prevFrames ring
      let current := (s.current ++ past) ++ [f]
      if cfg.maxFrames ≤ current.length then
        (⟨ring, false, [], 0⟩, [current])
      else
        (⟨ring, true, current, 0⟩, [])
  else
    if s.collecting then
      let ps := s.postSilence + 1
      if ps ≤ cfg.postFrames then
        (⟨ring, true, s.current ++ [f], ps⟩, [])
      else
        (⟨ring, false, [], 0⟩, [s.current])
    else
      (⟨ring, s.collecting, s.current, s.postSilence⟩, [])

/-- The frame loop of `feed` over a whole frame sequence, collecting the
emitted utterances in order. -/
def feedFrames (cfg : SegCfg) : SegState → List Frame →
    SegState × List (List Frame)
  | s, [] => (s, [])
  | s, f :: fs =>
    let so := stepFrame cfg s f
    let rest := feedFrames cfg so.1 fs
    (rest.1, so.2 ++ rest.2)

/-- `feed` on a fresh segmenter. -/
def feedAll (cfg : SegCfg) (input : List Frame) : List (List Frame) :=
  (feedFrames cfg initSegState input).2

/-- The ring push shared by every `stepFrame` branch. -/
def ringPush (cfg : SegCfg) (s : SegState) (f : Frame) : List Frame :=
  ringAppend (cfg.prevFrames + cfg.postFrames) s.ring f

/-- The pre-roll extracted at a transition. -/
def pastOf (cfg : SegCfg) (s : SegState) (f : Frame) : List Frame :=
  takeRight cfg.prevFrames (ringPush cfg s f)

/-- The first speech-classified frame of an utterance. -/
def firstSpeechFrame (u : List Frame) : Option Frame :=
  u.find? (fun f => f.isSpeech)

/-- Whether the frame `f` occurs at two consecutive positions of `u`. -/
def twiceInARow (f : Frame) : List Frame → Bool
  | a :: b :: t => (a = f && b = f) || twiceInARow f (b :: t)
  | _ => false

/-- An utterance shaped as the transition path builds it: some pre-roll
frames (fewer than `prev` of them), then the triggering speech frame twice
in a row, then the rest. -/
def dupShape (prev : Nat) (u : List Frame) : Prop :=
  ∃ pre f rest, u = pre ++ f :: f :: rest ∧ f.isSpeech = true ∧
    pre.length + 1 ≤ prev

/-! ## Theorems -/

/-- C9: loading the keyword configuration from a path that does not exist
returns the small built-in default keyword set, with the default severity 2
assigned to every default word, rather than failing or returning an empty
list. -/
theorem missing_keywords_file_defaults :
    load_keywords_with_severity none =
      (["土下座", "無能", "死ね"],
        [("土下座", 2), ("無能", 2), ("死ね", 2)]) ∧
    (load_keywords_with_severity none).1 ≠ [] := by
  refine ⟨rfl, ?_⟩
  decide

/-- C2: when the FAST transcription of an utterance is in the banned
hallucination set, the per-utterance handling in `main` performs no log
write (the day log is returned unchanged), evaluates the keyword detector
zero times, allocates no entry id, and submits no FINAL pass. -/
theorem fast_banned_skips_all (banned : List String)
    (detectF : String → List String) (finalOnHitOnly : Bool)
    (log : List LogLine) (idc : Nat) (ts fastText : String)
    (h : is_banned banned fastText = true) :
    processFast banned detectF finalOnHitOnly log idc ts fastText =
      ⟨log, idc, 0, false⟩ := by
  simp [processFast, h]

/-- Witness for C2 at a concrete banned FAST text. -/
theorem fast_banned_skips_all_witness :
    processFast ["ご視聴ありがとうございました"] (fun _ => ["hit"]) true []
      7 "T1" "ご視聴ありがとうございました" = ⟨[], 7, 0, false⟩ :=
  fast_banned_skips_all ["ご視聴ありがとうございました"] (fun _ => ["hit"])
    true [] 7 "T1" "ご視聴ありがとうございました" (by decide)

/-- C8: when the FINAL transcription of an utterance is in the banned
hallucination set, `_on_done` returns without touching the log: the day
log (including the utterance's FAST line) is unchanged, and no
replacement, error marker, or empty-text line is written. -/
theorem final_banned_leaves_log (banned : List String)
    (detectF : String → List String) (eid : String)
    (result : Except String String) (nowTs : String) (log : List LogLine)
    (h : is_banned banned (finalTextOf result) = true) :
    on_done banned detectF eid result nowTs log = log := by
  simp [on_done, h]

/-- Witness for C8: a banned FINAL text leaves a one-line FAST log
byte-for-byte unchanged. -/
theorem final_banned_leaves_log_witness :
    on_done ["ご視聴ありがとうございました"] (fun _ => []) "000001"
      (Except.ok "ご視聴ありがとうございました") "T9"
      [⟨"T1", "客", "FAST", "000001", "むかつく", ["むかつく"]⟩] =
      [⟨"T1", "客", "FAST", "000001", "むかつく", ["むかつく"]⟩] :=
  final_banned_leaves_log ["ご視聴ありがとうございました"] (fun _ => [])
    "000001" (Except.ok "ご視聴ありがとうございました") "T9"
    [⟨"T1", "客", "FAST", "000001", "むかつく", ["むかつく"]⟩] (by decide)

/-- C6: for any similarity scorer `pr` (rapidfuzz `partial_ratio` scores an
exact substring occurrence 100) and any kana normalizer, a configured
keyword whose normalized form has at least the minimum keyword length and
occurs exactly as a substring of the normalized text is returned by
`detect` for every threshold at most 100; a keyword whose normalized form
is shorter than the minimum length is never returned, for any scorer. -/
theorem fuzzy_detect_exact_substring (pr : String → String → Nat)
    (toHira : String → String) (keywords : List String)
    (threshold minHiraLen : Nat) (text kw : String) :
    (kw ∈ keywords → 1 ≤ minHiraLen → minHiraLen ≤ (toHira kw).length →
      List.IsInfix (toHira kw).data (toHira text).data →
      pr (toHira kw) (toHira text) = 100 → threshold ≤ 100 →
      kw ∈ detect pr toHira keywords threshold minHiraLen text)
    ∧ ((toHira kw).length < minHiraLen →
      kw ∉ detect pr toHira keywords threshold minHiraLen text) := by
  constructor
  · intro hmem hmin1 hminlen _hsub hscore hthr
    unfold detect
    refine List.mem_filter.mpr ⟨hmem, ?_⟩
    have hne : ¬ (toHira kw = "") := by
      intro h
      rw [h] at hminlen
      simp [String.length] at hminlen
      omega
    simp only [hne, decide_eq_true_eq, decide_True, Bool.not_false,
      Bool.true_and, Bool.and_eq_true, decide_eq_true_iff, hscore]
    exact ⟨by simpa using hminlen, by omega⟩
  · intro hshort hmemf
    unfold detect at hmemf
    have h2 := (List.mem_filter.mp hmemf).2
    simp only [Bool.and_eq_true, decide_eq_true_eq] at h2
    omega

/-- Witness for C6: with the substring-scoring property instantiated, the
keyword 土下座 (normalized length 3 ≥ 2) is detected at threshold 90 in
土下座してください. -/
theorem fuzzy_detect_exact_substring_witness :
    "土下座" ∈ detect (fun _ _ => 100) (fun s => s) ["土下座"] 90 2
      "土下座してください" :=
  (fuzzy_detect_exact_substring (fun _ _ => 100) (fun s => s) ["土下座"]
    90 2 "土下座してください" "土下座").1 (by decide) (by decide) (by decide)
    ⟨[], "してください".data, by decide⟩ rfl (by decide)

theorem whoOfRole_customer : whoOfRole "customer" = "客" := by decide

theorem replaceFirst_eq_none (who eid st tx : String) (hits : List String) :
    ∀ log : List LogLine,
      (replaceFirst who eid st tx hits log = none ↔ matchCount who eid log = 0)
  | [] => by simp [replaceFirst, matchCount]
  | l :: ls => by
    by_cases h : lineMatches who eid l = true
    · simp [replaceFirst, h, matchCount, List.countP_cons]
    · simp [replaceFirst, h, matchCount, List.countP_cons,
        replaceFirst_eq_none who eid st tx hits ls, matchCount]

theorem replaceFirst_decomp (who eid st tx : String) (hits : List String) :
    ∀ log : List LogLine, 1 ≤ matchCount who eid log →
      ∃ pre l post, log = pre ++ l :: post ∧ matchCount who eid pre = 0 ∧
        lineMatches who eid l = true ∧
        replaceFirst who eid st tx hits log =
          some (pre ++ ⟨l.ts, who, st, eid, tx, hits⟩ :: post)
  | [], h => by simp [matchCount] at h
  | l :: ls, h => by
    by_cases hm : lineMatches who eid l = true
    · exact ⟨[], l, ls, rfl, by simp [matchCount], hm,
        by simp [replaceFirst, hm]⟩
    · have h1 : 1 ≤ matchCount who eid ls := by
        unfold matchCount at h ⊢
        rw [List.countP_cons] at h
        simpa [hm] using h
      obtain ⟨pre, l0, post, heq, hpre, hm0, hrep⟩ :=
        replaceFirst_decomp who eid st tx hits ls h1
      refine ⟨l :: pre, l0, post, by rw [heq]; rfl, ?_, hm0, ?_⟩
      · unfold matchCount at hpre ⊢
        rw [List.countP_cons]
        simp [hm, hpre]
      · simp [replaceFirst, hm, hrep]

/-- C1 (amended): completing a FINAL pass over a log containing at least
one line whose role label and entry-id tag match replaces exactly the
first such line — keeping its timestamp, setting stage FINAL and the new
text/hits — and leaves the number of matching lines unchanged (so exactly
one line when the prior state had exactly one); when no line matches,
exactly one new FINAL line is appended.  In every case the resulting count
of matching lines is `max 1` of the prior count: the FINAL result is
written exactly once, but pre-existing duplicate lines for the same id are
not collapsed. -/
theorem final_replace_amended (banned : List String)
    (detectF : String → List String) (eid : String)
    (result : Except String String) (nowTs : String) (log : List LogLine)
    (hnb : is_banned banned (finalTextOf result) = false) :
    (matchCount "客" eid log = 0 →
      on_done banned detectF eid result nowTs log =
        log ++ [⟨nowTs, "客", "FINAL", eid, finalTextOf result,
          detectF (finalTextOf result)⟩])
    ∧ (1 ≤ matchCount "客" eid log →
      ∃ pre l post, log = pre ++ l :: post ∧ matchCount "客" eid pre = 0 ∧
        lineMatches "客" eid l = true ∧
        on_done banned detectF eid result nowTs log =
          pre ++ ⟨l.ts, "客", "FINAL", eid, finalTextOf result,
            detectF (finalTextOf result)⟩ :: post)
    ∧ matchCount "客" eid (on_done banned detectF eid result nowTs log) =
        max 1 (matchCount "客" eid log) := by
  have hmatch_new : ∀ ts st tx hits,
      lineMatches "客" eid (⟨ts, "客", st, eid, tx, hits⟩ : LogLine) = true := by
    intro ts st tx hits
    simp [lineMatches]
  have hpart1 : matchCount "客" eid log = 0 →
      on_done banned detectF eid result nowTs log =
        log ++ [⟨nowTs, "客", "FINAL", eid, finalTextOf result,
          detectF (finalTextOf result)⟩] := by
    intro h0
    have hnone := (replaceFirst_eq_none "客" eid "FINAL" (finalTextOf result)
      (detectF (finalTextOf result)) log).mpr h0
    unfold on_done replace_log_line
    rw [whoOfRole_customer, hnone, hnb]
    simp [append_log_line, whoOfRole_customer]
  have hpart2 : 1 ≤ matchCount "客" eid log →
      ∃ pre l post, log = pre ++ l :: post ∧ matchCount "客" eid pre = 0 ∧
        lineMatches "客" eid l = true ∧
        on_done banned detectF eid result nowTs log =
          pre ++ ⟨l.ts, "客", "FINAL", eid, finalTextOf result,
            detectF (finalTextOf result)⟩ :: post := by
    intro h1
    obtain ⟨pre, l, post, heq, hpre, hm, hrep⟩ :=
      replaceFirst_decomp "客" eid "FINAL" (finalTextOf result)
        (detectF (finalTextOf result)) log h1
    refine ⟨pre, l, post, heq, hpre, hm, ?_⟩
    unfold on_done replace_log_line
    rw [whoOfRole_customer, hrep, hnb]
    rfl
  refine ⟨hpart1, hpart2, ?_⟩
  by_cases h0 : matchCount "客" eid log = 0
  · rw [hpart1 h0, h0]
    unfold matchCount at h0 ⊢
    rw [List.countP_append, h0]
    simp [hmatch_new]
  · have h1 : 1 ≤ matchCount "客" eid log := Nat.one_le_iff_ne_zero.mpr h0
    obtain ⟨pre, l, post, heq, hpre, hm, hres⟩ := hpart2 h1
    rw [hres, heq]
    unfold matchCount at hpre ⊢
    rw [List.countP_append, List.countP_append, List.countP_cons,
      List.countP_cons, hpre]
    simp only [hm, hmatch_new, if_pos]
    omega

/-- Witness for C1: a log holding exactly one FAST line for the id ends up
with exactly one line for the id after the FINAL completion. -/
theorem final_replace_amended_witness :
    matchCount "客" "000001"
      (on_done [] (fun _ => ["keyword"]) "000001" (Except.ok "final") "T9"
        [⟨"T1", "客", "FAST", "000001", "a", []⟩]) =
      max 1 (matchCount "客" "000001"
        [⟨"T1", "客", "FAST", "000001", "a", []⟩]) :=
  (final_replace_amended [] (fun _ => ["keyword"]) "000001" (Except.ok "final")
    "T9" [⟨"T1", "客", "FAST", "000001", "a", []⟩] (by decide)).2.2

/-- Counterexample to C1 as stated: a log with two lines matching the same
entry id still holds two such lines after the FINAL completion (only the
first was replaced), not exactly one. -/
theorem final_replace_claim_cex :
    1 ≤ matchCount "客" "000001"
      [⟨"T1", "客", "FAST", "000001", "a", []⟩,
       ⟨"T2", "客", "FAST", "000001", "b", []⟩] ∧
    matchCount "客" "000001"
      (on_done [] (fun _ => []) "000001" (Except.ok "final") "T9"
        [⟨"T1", "客", "FAST", "000001", "a", []⟩,
         ⟨"T2", "客", "FAST", "000001", "b", []⟩]) ≠ 1 := by
  decide

theorem summarizeFrom_success (maxRetries : Nat)
    (outcome : Nat → Option LLMResult) (k : Nat) (res : LLMResult)
    (hk : outcome k = some res) (hkm : k ≤ maxRetries) :
    ∀ fuel attempt, attempt ≤ k → k < attempt + fuel →
      (∀ i, attempt ≤ i → i < k → outcome i = none) →
      summarizeFrom maxRetries outcome attempt fuel = some res := by
  intro fuel
  induction fuel with
  | zero => intro attempt h1 h2 _; omega
  | succ n ih =>
    intro attempt h1 h2 hfail
    by_cases he : attempt = k
    · subst he
      simp [summarizeFrom, hk]
    · have hlt : attempt < k := by omega
      have h0 : outcome attempt = none := hfail attempt (Nat.le_refl _) hlt
      have hguard : ¬ (maxRetries < attempt + 1) := by omega
      simp only [summarizeFrom, h0, hguard, if_false]
      exact ih (attempt + 1) (by omega) (by omega)
        (fun i hi1 hi2 => hfail i (by omega) hi2)

theorem summarizeFrom_fail (maxRetries : Nat)
    (outcome : Nat → Option LLMResult)
    (hfail : ∀ i, i ≤ maxRetries → outcome i = none) :
    ∀ fuel attempt, attempt ≤ maxRetries →
      summarizeFrom maxRetries outcome attempt fuel = none := by
  intro fuel
  induction fuel with
  | zero => intro attempt _; rfl
  | succ n ih =>
    intro attempt h1
    have h0 : outcome attempt = none := hfail attempt h1
    by_cases hguard : maxRetries < attempt + 1
    · simp [summarizeFrom, h0, hguard]
    · simp only [summarizeFrom, h0, hguard, if_false]
      exact ih (attempt + 1) (by omega)

/-- C3: a summarization job whose backend call fails `maxRetries − 1` times
and then succeeds persists exactly one success record to the day's JSONL
file and writes no error artifact; a job whose backend call fails
`maxRetries + 1` times (every attempt the retry loop makes) persists
exactly one per-job error artifact plus one per-day error-log entry and no
success record; in both cases the job is popped from the queue and never
re-enqueued. -/
theorem summarize_retry_persistence (maxRetries : Nat)
    (o1 o2 : Nat → Option LLMResult) (win : WindowConfig) (job : Job)
    (q : List Job) (fs : DayFiles) (res : LLMResult)
    (hmr : 1 ≤ maxRetries) :
    ((∀ i, i < maxRetries - 1 → o1 i = none) →
      o1 (maxRetries - 1) = some res →
      workerStep maxRetries o1 win (job :: q) fs =
        (q, { fs with jsonl := fs.jsonl ++ [successRecord win job res] }))
    ∧ ((∀ i, i ≤ maxRetries → o2 i = none) →
      workerStep maxRetries o2 win (job :: q) fs =
        (q, { fs with perJobErrors := fs.perJobErrors ++ [job.ng_index],
                      perDayErrorLines := fs.perDayErrorLines + 1 })) := by
  constructor
  · intro hfail hsucc
    have hsum : summarize maxRetries o1 = some res := by
      unfold summarize
      exact summarizeFrom_success maxRetries o1 (maxRetries - 1) res hsucc
        (by omega) (maxRetries + 1) 0 (by omega) (by omega)
        (fun i _ hi2 => hfail i hi2)
    simp [workerStep, processJob, hsum]
  · intro hfail
    have hsum : summarize maxRetries o2 = none := by
      unfold summarize
      exact summarizeFrom_fail maxRetries o2 hfail (maxRetries + 1) 0 (by omega)
    simp [workerStep, processJob, hsum]

/-- Witness for C3 with the code-default `max_retries = 5`: four failures
then a success persist one JSONL record; six failures persist one per-job
error artifact and one per-day error-log line, and in both runs the job is
terminal. -/
theorem summarize_retry_persistence_witness :
    (workerStep 5
      (fun i => if i < 4 then none
        else some ⟨"土下座", [], "sum", 2, "act", "cmf"⟩)
      defaultWindowConfig
      [⟨"2025-01-01", [⟨some 0, "customer", "土下座しろ"⟩], 0, "土下座", 2⟩]
      ⟨[], [], 0⟩ =
      ([], { jsonl :=
              [successRecord defaultWindowConfig
                ⟨"2025-01-01", [⟨some 0, "customer", "土下座しろ"⟩], 0, "土下座", 2⟩
                ⟨"土下座", [], "sum", 2, "act", "cmf"⟩],
             perJobErrors := [], perDayErrorLines := 0 }))
    ∧ (workerStep 5 (fun _ => none) defaultWindowConfig
      [⟨"2025-01-01", [⟨some 0, "customer", "土下座しろ"⟩], 0, "土下座", 2⟩]
      ⟨[], [], 0⟩ =
      ([], { jsonl := [], perJobErrors := [0], perDayErrorLines := 1 })) := by
  have h := summarize_retry_persistence 5
    (fun i => if i < 4 then none else some ⟨"土下座", [], "sum", 2, "act", "cmf"⟩)
    (fun _ => none) defaultWindowConfig
    ⟨"2025-01-01", [⟨some 0, "customer", "土下座しろ"⟩], 0, "土下座", 2⟩
    [] ⟨[], [], 0⟩ ⟨"土下座", [], "sum", 2, "act", "cmf"⟩ (by omega)
  refine ⟨?_, ?_⟩
  · exact h.1 (fun i hi => by simp only [if_pos (show i < 4 by omega)])
      (by norm_num)
  · exact h.2 (fun i _ => rfl)

theorem takeRight_length (n : Nat) (l : List Frame) :
    (takeRight n l).length = min n l.length := by
  simp [takeRight]
  omega

/-- The ring after an append ends with the appended frame. -/
theorem ringAppend_shape (m : Nat) (hm : 1 ≤ m) (r : List Frame) (f : Frame) :
    ∃ q : List Frame, ringAppend m r f = q ++ [f] := by
  unfold ringAppend
  by_cases h : m < (r ++ [f]).length
  · refine ⟨List.drop ((r ++ [f]).length - m) r, ?_⟩
    rw [if_pos h, List.drop_append_of_le_length (by simp at h ⊢; omega)]
  · exact ⟨r, by rw [if_neg h]⟩

/-- The pre-roll `list(ring)[-prev:]` taken right after pushing the
triggering frame ends with that frame, preceded by fewer than `prev`
older ring frames. -/
theorem past_shape (m n : Nat) (hm : 1 ≤ m) (hn : 1 ≤ n)
    (r : List Frame) (f : Frame) :
    ∃ pre : List Frame, takeRight n (ringAppend m r f) = pre ++ [f] ∧
      pre.length + 1 ≤ n := by
  obtain ⟨q, hq⟩ := ringAppend_shape m hm r f
  rw [hq]
  unfold takeRight
  rw [List.drop_append_of_le_length (by simp; omega)]
  refine ⟨q.drop ((q ++ [f]).length - n), rfl, ?_⟩
  simp
  omega

theorem dupShape_append (prev : Nat) (u : List Frame) (x : Frame)
    (h : dupShape prev u) : dupShape prev (u ++ [x]) := by
  obtain ⟨pre, f0, rest, he, hsp, hlen⟩ := h
  exact ⟨pre, f0, rest ++ [x], by rw [he]; simp, hsp, hlen⟩

theorem stepFrame_sp_col_emit (cfg : SegCfg) (s : SegState) (f : Frame)
    (hf : f.isSpeech = true) (hcol : s.collecting = true)
    (hemit : cfg.maxFrames ≤ (s.current ++ [f]).length) :
    stepFrame cfg s f =
      (⟨ringPush cfg s f, false, [], 0⟩, [s.current ++ [f]]) := by
  unfold stepFrame ringPush
  rw [hf, hcol]
  simp [hemit]
  simp at hemit
  omega

theorem stepFrame_sp_col_go (cfg : SegCfg) (s : SegState) (f : Frame)
    (hf : f.isSpeech = true) (hcol : s.collecting = true)
    (hemit : ¬ cfg.maxFrames ≤ (s.current ++ [f]).length) :
    stepFrame cfg s f =
      (⟨ringPush cfg s f, true, s.current ++ [f], s.postSilence⟩, []) := by
  unfold stepFrame ringPush
  rw [hf, hcol]
  simp [hemit]
  simp at hemit
  omega

theorem stepFrame_sp_new_emit (cfg : SegCfg) (s : SegState) (f : Frame)
    (hf : f.isSpeech = true) (hcol : s.collecting = false)
    (hemit : cfg.maxFrames ≤ ((s.current ++ pastOf cfg s f) ++ [f]).length) :
    stepFrame cfg s f =
      (⟨ringPush cfg s f, false, [], 0⟩,
        [(s.current ++ pastOf cfg s f) ++ [f]]) := by
  unfold pastOf ringPush at hemit ⊢
  unfold stepFrame
  rw [hf, hcol]
  simp [hemit]
  simp at hemit
  omega

theorem stepFrame_sp_new_go (cfg : SegCfg) (s : SegState) (f : Frame)
    (hf : f.isSpeech = true) (hcol : s.collecting = false)
    (hemit : ¬ cfg.maxFrames ≤ ((s.current ++ pastOf cfg s f) ++ [f]).length) :
    stepFrame cfg s f =
      (⟨ringPush cfg s f, true, (s.current ++ pastOf cfg s f) ++ [f], 0⟩,
        []) := by
  unfold pastOf ringPush at hemit ⊢
  unfold stepFrame
  rw [hf, hcol]
  simp [hemit]
  simp at hemit
  omega

theorem stepFrame_si_col_pad (cfg : SegCfg) (s : SegState) (f : Frame)
    (hf : f.isSpeech = false) (hcol : s.collecting = true)
    (hps : s.postSilence + 1 ≤ cfg.postFrames) :
    stepFrame cfg s f =
      (⟨ringPush cfg s f, true, s.current ++ [f], s.postSilence + 1⟩, []) := by
  unfold stepFrame ringPush
  rw [hf, hcol]
  simp [hps]

theorem stepFrame_si_col_emit (cfg : SegCfg) (s : SegState) (f : Frame)
    (hf : f.isSpeech = false) (hcol : s.collecting = true)
    (hps : ¬ s.postSilence + 1 ≤ cfg.postFrames) :
    stepFrame cfg s f =
      (⟨ringPush cfg s f, false, [], 0⟩, [s.current]) := by
  unfold stepFrame ringPush
  rw [hf, hcol]
  simp [hps]

theorem stepFrame_si_idle (cfg : SegCfg) (s : SegState) (f : Frame)
    (hf : f.isSpeech = false) (hcol : s.collecting = false) :
    stepFrame cfg s f =
      (⟨ringPush cfg s f, false, s.current, s.postSilence⟩, []) := by
  unfold stepFrame ringPush
  rw [hf, hcol]
  simp

theorem stepFrame_dupShape (cfg : SegCfg) (hprev : 1 ≤ cfg.prevFrames)
    (s : SegState) (f : Frame)
    (hs : s.collecting = false → s.current = [])
    (hc : s.collecting = true → dupShape cfg.prevFrames s.current) :
    ((stepFrame cfg s f).1.collecting = false →
      (stepFrame cfg s f).1.current = [])
    ∧ ((stepFrame cfg s f).1.collecting = true →
      dupShape cfg.prevFrames (stepFrame cfg s f).1.current)
    ∧ (∀ u ∈ (stepFrame cfg s f).2, dupShape cfg.prevFrames u) := by
  have hm : 1 ≤ cfg.prevFrames + cfg.postFrames := by omega
  cases hf : f.isSpeech with
  | true =>
    cases hcol : s.collecting with
    | true =>
      have hshape := dupShape_append cfg.prevFrames s.current f (hc hcol)
      by_cases hemit : cfg.maxFrames ≤ (s.current ++ [f]).length
      · rw [stepFrame_sp_col_emit cfg s f hf hcol hemit]
        exact ⟨fun _ => rfl, fun h => by simp at h, by simpa using hshape⟩
      · rw [stepFrame_sp_col_go cfg s f hf hcol hemit]
        exact ⟨fun h => by simp at h, fun _ => hshape, by simp⟩
    | false =>
      obtain ⟨pre, hpast, hlen⟩ :=
        past_shape (cfg.prevFrames + cfg.postFrames) cfg.prevFrames hm hprev
          s.ring f
      have hcur : (s.current ++ pastOf cfg s f) ++ [f] =
          pre ++ f :: f :: [] := by
        unfold pastOf ringPush
        rw [hs hcol, hpast]
        simp
      have hshape : dupShape cfg.prevFrames
          ((s.current ++ pastOf cfg s f) ++ [f]) :=
        ⟨pre, f, [], hcur, hf, hlen⟩
      by_cases hemit :
          cfg.maxFrames ≤ ((s.current ++ pastOf cfg s f) ++ [f]).length
      · rw [stepFrame_sp_new_emit cfg s f hf hcol hemit]
        exact ⟨fun _ => rfl, fun h => by simp at h, by simpa using hshape⟩
      · rw [stepFrame_sp_new_go cfg s f hf hcol hemit]
        exact ⟨fun h => by simp at h, fun _ => hshape, by simp⟩
  | false =>
    cases hcol : s.collecting with
    | true =>
      by_cases hps : s.postSilence + 1 ≤ cfg.postFrames
      · rw [stepFrame_si_col_pad cfg s f hf hcol hps]
        exact ⟨fun h => by simp at h,
          fun _ => dupShape_append cfg.prevFrames s.current f (hc hcol),
          by simp⟩
      · rw [stepFrame_si_col_emit cfg s f hf hcol hps]
        exact ⟨fun _ => rfl, fun h => by simp at h, by simpa using hc hcol⟩
    | false =>
      rw [stepFrame_si_idle cfg s f hf hcol]
      exact ⟨fun _ => hs hcol, fun h => by simp at h, by simp⟩

theorem feedFrames_dupShape (cfg : SegCfg) (hprev : 1 ≤ cfg.prevFrames) :
    ∀ (input : List Frame) (s : SegState),
      (s.collecting = false → s.current = []) →
      (s.collecting = true → dupShape cfg.prevFrames s.current) →
      ∀ u ∈ (feedFrames cfg s input).2, dupShape cfg.prevFrames u
  | [], _, _, _ => by simp [feedFrames]
  | f :: fs, s, hs, hc => by
    obtain ⟨h1, h2, h3⟩ := stepFrame_dupShape cfg hprev s f hs hc
    intro u hu
    simp only [feedFrames, List.mem_append] at hu
    rcases hu with hu | hu
    · exact h3 u hu
    · exact feedFrames_dupShape cfg hprev fs (stepFrame cfg s f).1 h1 h2 u hu

/-- C10 (amended): at a not-triggered → triggered transition the current
frame has already been pushed into the ring before the pre-roll is
extracted, so every utterance the segmenter emits consists of at most
`prevFrames − 1` older pre-roll frames followed by the triggering speech
frame twice in a row and the rest of the collected frames.  The duplicated
frame is the utterance's *first speech frame* only when those pre-roll
frames are all non-speech; after a force-emit or a short silence gap the
ring can still hold earlier speech frames. -/
theorem trigger_frame_duplicated_amended (cfg : SegCfg) (input : List Frame)
    (hprev : 1 ≤ cfg.prevFrames) :
    ∀ u ∈ feedAll cfg input, dupShape cfg.prevFrames u :=
  feedFrames_dupShape cfg hprev input initSegState (fun _ => rfl)
    (fun h => by simp [initSegState] at h)

/-- Witness for C10: the single utterance emitted after two silence
frames, one speech frame and enough trailing silence carries its trigger
frame twice in a row behind one genuine pre-roll frame. -/
theorem trigger_frame_duplicated_amended_witness :
    dupShape 2 [((0 : Nat), false), (1, true), (1, true), (2, false), (3, false)] :=
  trigger_frame_duplicated_amended ⟨2, 2, 100⟩
    [((0 : Nat), false), (1, true), (2, false), (3, false), (4, false)]
    (by decide)
    [((0 : Nat), false), (1, true), (1, true), (2, false), (3, false)]
    (by decide)

/-- Counterexample to C10 as stated: when the ring still holds an earlier
speech frame at the transition, the emitted utterance's first speech frame
occurs only once; it is the (later) triggering frame that is duplicated. -/
theorem first_speech_frame_claim_cex :
    feedAll ⟨4, 1, 100⟩
      [((1 : Nat), true), (2, true), (3, true), (4, false), (5, false),
        (6, true), (7, false), (8, false)] =
      [[((1 : Nat), true), (1, true), (2, true), (3, true), (4, false)],
       [((3 : Nat), true), (4, false), (5, false), (6, true), (6, true),
        (7, false)]] ∧
    firstSpeechFrame
      [((3 : Nat), true), (4, false), (5, false), (6, true), (6, true),
        (7, false)] = some (3, true) ∧
    twiceInARow ((3 : Nat), true)
      [((3 : Nat), true), (4, false), (5, false), (6, true), (6, true),
        (7, false)] = false ∧
    twiceInARow ((6 : Nat), true)
      [((3 : Nat), true), (4, false), (5, false), (6, true), (6, true),
        (7, false)] = true := by
  decide

theorem stepFrame_lenBound (cfg : SegCfg) (hpost : 1 ≤ cfg.postFrames)
    (hprev : cfg.prevFrames ≤ cfg.maxFrames) (s : SegState) (f : Frame)
    (hs : s.collecting = false → s.current = [] ∧ s.postSilence = 0)
    (hc : s.collecting = true →
      s.current.length + 1 ≤ cfg.maxFrames + s.postSilence ∧
      s.postSilence ≤ cfg.postFrames) :
    ((stepFrame cfg s f).1.collecting = false →
      (stepFrame cfg s f).1.current = [] ∧
      (stepFrame cfg s f).1.postSilence = 0)
    ∧ ((stepFrame cfg s f).1.collecting = true →
      (stepFrame cfg s f).1.current.length + 1 ≤
        cfg.maxFrames + (stepFrame cfg s f).1.postSilence ∧
      (stepFrame cfg s f).1.postSilence ≤ cfg.postFrames)
    ∧ (∀ u ∈ (stepFrame cfg s f).2,
      u.length ≤ cfg.maxFrames + cfg.postFrames) := by
  cases hf : f.isSpeech with
  | true =>
    cases hcol : s.collecting with
    | true =>
      obtain ⟨hlen, hps⟩ := hc hcol
      by_cases hemit : cfg.maxFrames ≤ (s.current ++ [f]).length
      · rw [stepFrame_sp_col_emit cfg s f hf hcol hemit]
        refine ⟨fun _ => ⟨rfl, rfl⟩, fun h => by simp at h, ?_⟩
        intro u hu
        simp at hu
        subst hu
        simp
        omega
      · rw [stepFrame_sp_col_go cfg s f hf hcol hemit]
        refine ⟨fun h => by simp at h, fun _ => ?_, by simp⟩
        simp at hemit ⊢
        omega
    | false =>
      have hpastlen : (pastOf cfg s f).length ≤ cfg.prevFrames := by
        unfold pastOf
        rw [takeRight_length]
        omega
      have hcur0 : s.current = [] := (hs hcol).1
      by_cases hemit :
          cfg.maxFrames ≤ ((s.current ++ pastOf cfg s f) ++ [f]).length
      · rw [stepFrame_sp_new_emit cfg s f hf hcol hemit]
        refine ⟨fun _ => ⟨rfl, rfl⟩, fun h => by simp at h, ?_⟩
        intro u hu
        simp at hu
        subst hu
        rw [hcur0]
        simp
        omega
      · rw [stepFrame_sp_new_go cfg s f hf hcol hemit]
        refine ⟨fun h => by simp at h, fun _ => ?_, by simp⟩
        simp at hemit ⊢
        omega
  | false =>
    cases hcol : s.collecting with
    | true =>
      obtain ⟨hlen, hps⟩ := hc hcol
      by_cases hpsp : s.postSilence + 1 ≤ cfg.postFrames
      · rw [stepFrame_si_col_pad cfg s f hf hcol hpsp]
        refine ⟨fun h => by simp at h, fun _ => ?_, by simp⟩
        simp
        omega
      · rw [stepFrame_si_col_emit cfg s f hf hcol hpsp]
        refine ⟨fun _ => ⟨rfl, rfl⟩, fun h => by simp at h, ?_⟩
        intro u hu
        simp at hu
        subst hu
        omega
    | false =>
      rw [stepFrame_si_idle cfg s f hf hcol]
      exact ⟨fun _ => hs hcol, fun h => by simp at h, by simp⟩

theorem feedFrames_lenBound (cfg : SegCfg) (hpost : 1 ≤ cfg.postFrames)
    (hprev : cfg.prevFrames ≤ cfg.maxFrames) :
    ∀ (input : List Frame) (s : SegState),
      (s.collecting = false → s.current = [] ∧ s.postSilence = 0) →
      (s.collecting = true →
        s.current.length + 1 ≤ cfg.maxFrames + s.postSilence ∧
        s.postSilence ≤ cfg.postFrames) →
      ∀ u ∈ (feedFrames cfg s input).2,
        u.length ≤ cfg.maxFrames + cfg.postFrames
  | [], _, _, _ => by simp [feedFrames]
  | f :: fs, s, hs, hc => by
    obtain ⟨h1, h2, h3⟩ := stepFrame_lenBound cfg hpost hprev s f hs hc
    intro u hu
    simp only [feedFrames, List.mem_append] at hu
    rcases hu with hu | hu
    · exact h3 u hu
    · exact feedFrames_lenBound cfg hpost hprev fs (stepFrame cfg s f).1
        h1 h2 u hu

/-- C7 (amended): the open utterance is force-emitted as soon as it reaches
`maxFrames = maxUtteranceMs / frameMs` frames *during speech*, so a long
speech region is split where the buffer fills; but trailing post-padding is
appended without a length check, so an emitted utterance may exceed the
nominal bound by up to `postFrames` frames, and the remainder of a region
that barely exceeds the bound stays unemitted without sufficient trailing
silence (yielding a single utterance, not several).  The provable bound is
`maxFrames + postFrames` frames per emitted utterance (for configurations
with `postFrames ≥ 1` and `prevFrames ≤ maxFrames`, which the constructor's
defaults satisfy). -/
theorem utterance_length_bound_amended (cfg : SegCfg) (input : List Frame)
    (hpost : 1 ≤ cfg.postFrames) (hprev : cfg.prevFrames ≤ cfg.maxFrames) :
    ∀ u ∈ feedAll cfg input, u.length ≤ cfg.maxFrames + cfg.postFrames :=
  feedFrames_lenBound cfg hpost hprev input initSegState
    (fun _ => ⟨rfl, rfl⟩) (fun h => by simp [initSegState] at h)

/-- Witness for C7's amended bound on a concrete run whose emitted
utterance has 4 frames with `maxFrames = 3`, `postFrames = 2`. -/
theorem utterance_length_bound_amended_witness :
    ([((1 : Nat), true), (1, true), (2, false), (3, false)] : List Frame).length ≤
      3 + 2 :=
  utterance_length_bound_amended ⟨1, 2, 3⟩
    [((0 : Nat), false), (1, true), (2, false), (3, false), (4, false)]
    (by decide) (by decide)
    [((1 : Nat), true), (1, true), (2, false), (3, false)] (by decide)

/-- Counterexample to C7 as stated: with `maxFrames = 3` the trailing
post-padding yields an emitted utterance of 4 frames, exceeding
`maxUtteranceMs / frameMs`; and with `maxFrames = 4` a speech region of 5
frames (exceeding the bound) followed by a single silence frame produces
exactly one emitted utterance, not several. -/
theorem utterance_length_claim_cex :
    feedAll ⟨1, 2, 3⟩
      [((0 : Nat), false), (1, true), (2, false), (3, false), (4, false)] =
      [[((1 : Nat), true), (1, true), (2, false), (3, false)]] ∧
    ¬ ([((1 : Nat), true), (1, true), (2, false), (3, false)] :
      List Frame).length ≤ 3 ∧
    (feedAll ⟨1, 2, 4⟩
      [((0 : Nat), false), (1, true), (2, true), (3, true), (4, true),
        (5, true), (6, false)]).length = 1 := by
  decide

theorem ringAppend_length (m : Nat) (r : List Frame) (f : Frame) :
    (ringAppend m r f).length = min m (r.length + 1) := by
  unfold ringAppend
  by_cases h : m < (r ++ [f]).length
  · rw [if_pos h]
    simp at h ⊢
    omega
  · rw [if_neg h]
    simp at h ⊢
    omega

theorem foldl_ringAppend_length (m : Nat) :
    ∀ (xs r : List Frame), r.length ≤ m →
      (List.foldl (ringAppend m) r xs).length = min m (r.length + xs.length)
  | [], r, h => by simp; omega
  | x :: xs, r, h => by
    rw [List.foldl_cons, foldl_ringAppend_length m xs (ringAppend m r x)
      (by rw [ringAppend_length]; omega), ringAppend_length]
    simp
    omega

theorem feedFrames_append (cfg : SegCfg) :
    ∀ (xs ys : List Frame) (s : SegState),
      feedFrames cfg s (xs ++ ys) =
        ((feedFrames cfg (feedFrames cfg s xs).1 ys).1,
          (feedFrames cfg s xs).2 ++
            (feedFrames cfg (feedFrames cfg s xs).1 ys).2)
  | [], ys, s => by simp [feedFrames]
  | x :: xs, ys, s => by
    simp only [List.cons_append, feedFrames, List.append_eq]
    rw [feedFrames_append cfg xs ys (stepFrame cfg s x).1]
    simp [List.append_assoc]

theorem feedFrames_idle_silence (cfg : SegCfg) :
    ∀ (xs : List Frame), (∀ f ∈ xs, f.isSpeech = false) →
      ∀ r : List Frame,
        feedFrames cfg ⟨r, false, [], 0⟩ xs =
          (⟨List.foldl (ringAppend (cfg.prevFrames + cfg.postFrames)) r xs,
            false, [], 0⟩, [])
  | [], _, r => by simp [feedFrames]
  | x :: xs, h, r => by
    have hx : x.isSpeech = false := h x (List.mem_cons_self x xs)
    have hstep := stepFrame_si_idle cfg ⟨r, false, [], 0⟩ x hx rfl
    simp only [feedFrames, hstep]
    rw [feedFrames_idle_silence cfg xs
      (fun f hf => h f (List.mem_cons_of_mem x hf))]
    simp [ringPush]

theorem feedFrames_speech_run (cfg : SegCfg) :
    ∀ (xs : List Frame), (∀ f ∈ xs, f.isSpeech = true) →
      ∀ (r cur : List Frame) (ps : Nat),
        cur.length + xs.length < cfg.maxFrames →
        feedFrames cfg ⟨r, true, cur, ps⟩ xs =
          (⟨List.foldl (ringAppend (cfg.prevFrames + cfg.postFrames)) r xs,
            true, cur ++ xs, ps⟩, [])
  | [], _, r, cur, ps, _ => by simp [feedFrames]
  | x :: xs, h, r, cur, ps, hlen => by
    have hx : x.isSpeech = true := h x (List.mem_cons_self x xs)
    have hemit : ¬ cfg.maxFrames ≤ (cur ++ [x]).length := by
      simp only [List.length_append, List.length_cons, List.length_nil] at hlen ⊢
      omega
    have hstep := stepFrame_sp_col_go cfg ⟨r, true, cur, ps⟩ x hx rfl hemit
    simp only [feedFrames, hstep]
    rw [feedFrames_speech_run cfg xs
      (fun f hf => h f (List.mem_cons_of_mem x hf))
      (ringPush cfg ⟨r, true, cur, ps⟩ x) (cur ++ [x]) ps
      (by simp only [List.length_append, List.length_cons, List.length_nil]
            at hlen ⊢
          omega)]
    simp [ringPush]

theorem feedFrames_silence_pad (cfg : SegCfg) :
    ∀ (xs : List Frame), (∀ f ∈ xs, f.isSpeech = false) →
      ∀ (r cur : List Frame) (ps : Nat),
        ps + xs.length ≤ cfg.postFrames →
        feedFrames cfg ⟨r, true, cur, ps⟩ xs =
          (⟨List.foldl (ringAppend (cfg.prevFrames + cfg.postFrames)) r xs,
            true, cur ++ xs, ps + xs.length⟩, [])
  | [], _, r, cur, ps, _ => by simp [feedFrames]
  | x :: xs, h, r, cur, ps, hlen => by
    have hx : x.isSpeech = false := h x (List.mem_cons_self x xs)
    have hps : ps + 1 ≤ cfg.postFrames := by
      simp only [List.length_cons] at hlen
      omega
    have hstep := stepFrame_si_col_pad cfg ⟨r, true, cur, ps⟩ x hx rfl hps
    simp only [feedFrames, hstep]
    rw [feedFrames_silence_pad cfg xs
      (fun f hf => h f (List.mem_cons_of_mem x hf))
      (ringPush cfg ⟨r, true, cur, ps⟩ x) (cur ++ [x]) (ps + 1)
      (by simp only [List.length_cons] at hlen; omega)]
    have hps2 : ps + 1 + xs.length = ps + (xs.length + 1) := by omega
    simp [ringPush, hps2]

/-- C4 (amended): a frame sequence consisting of leading silence, one
contiguous speech region of `L ≥ 1` frames and trailing silence makes
`feed` emit exactly one utterance of `L + prevFrames + postFrames` frames,
*provided* the leading silence holds at least `prevFrames − 1` frames (so
the pre-roll is full — note the pre-roll double-counts the triggering
frame), the region stays below the force-split bound
(`L + prevFrames < maxFrames`) and the trailing silence has at least
`postFrames + 1` frames.  With `postFrames` or fewer trailing silence
frames the segment stays open and nothing is emitted, so the claim's
`min(postPaddingFrames, available trailing silence)` formula does not
apply. -/
theorem single_region_emission_amended (cfg : SegCfg) (a b c : List Frame)
    (ha : ∀ f ∈ a, f.isSpeech = false) (hb : ∀ f ∈ b, f.isSpeech = true)
    (hcs : ∀ f ∈ c, f.isSpeech = false)
    (_hprev1 : 1 ≤ cfg.prevFrames) (hprevA : cfg.prevFrames ≤ a.length + 1)
    (hL : 1 ≤ b.length) (hmax : b.length + cfg.prevFrames < cfg.maxFrames)
    (hpostc : cfg.postFrames + 1 ≤ c.length) :
    ∃ u, feedAll cfg (a ++ b ++ c) = [u] ∧
      u.length = b.length + cfg.prevFrames + cfg.postFrames := by
  obtain ⟨b0, btail, rfl⟩ : ∃ b0 btail, b = b0 :: btail := by
    cases b with
    | nil => simp at hL
    | cons b0 bt => exact ⟨b0, bt, rfl⟩
  have hctake : (c.take cfg.postFrames).length = cfg.postFrames := by
    rw [List.length_take]
    omega
  obtain ⟨x, c2, hdrop⟩ : ∃ x c2, c.drop cfg.postFrames = x :: c2 := by
    cases hdd : c.drop cfg.postFrames with
    | nil =>
      have hdl := congrArg List.length hdd
      simp at hdl
      omega
    | cons x c2 => exact ⟨x, c2, rfl⟩
  have hcsplit : c = c.take cfg.postFrames ++ x :: c2 := by
    conv_lhs => rw [← List.take_append_drop cfg.postFrames c]
    rw [hdrop]
  have hb0 : b0.isSpeech = true := hb b0 (List.mem_cons_self b0 btail)
  have hbt : ∀ f ∈ btail, f.isSpeech = true :=
    fun f hf => hb f (List.mem_cons_of_mem b0 hf)
  have hc1sil : ∀ f ∈ c.take cfg.postFrames, f.isSpeech = false :=
    fun f hf => hcs f (List.mem_of_mem_take hf)
  have hxsil : x.isSpeech = false := by
    refine hcs x ?_
    rw [hcsplit]
    exact List.mem_append.mpr (Or.inr (List.mem_cons_self x c2))
  have hc2sil : ∀ f ∈ c2, f.isSpeech = false := by
    intro f hf
    refine hcs f ?_
    rw [hcsplit]
    exact List.mem_append.mpr (Or.inr (List.mem_cons_of_mem x hf))
  -- phase A: leading silence on the fresh segmenter
  have phA := feedFrames_idle_silence cfg a ha []
  -- the pre-roll is exactly `prevFrames` frames long
  have hR1len : (List.foldl
      (ringAppend (cfg.prevFrames + cfg.postFrames)) [] a).length =
      min (cfg.prevFrames + cfg.postFrames) a.length := by
    have := foldl_ringAppend_length (cfg.prevFrames + cfg.postFrames) a []
      (by simp)
    simpa using this
  have hpastlen :
      (pastOf cfg ⟨List.foldl (ringAppend (cfg.prevFrames + cfg.postFrames))
        [] a, false, [], 0⟩ b0).length = cfg.prevFrames := by
    unfold pastOf ringPush
    rw [takeRight_length, ringAppend_length]
    simp only []
    rw [hR1len]
    omega
  -- the transition step does not force-emit
  have hemit1 : ¬ cfg.maxFrames ≤
      (([] ++ pastOf cfg ⟨List.foldl
        (ringAppend (cfg.prevFrames + cfg.postFrames)) [] a, false, [], 0⟩
        b0) ++ [b0]).length := by
    simp only [List.nil_append, List.length_append, List.length_cons,
      List.length_nil, hpastlen]
    simp only [List.length_cons] at hmax
    omega
  have st1 := stepFrame_sp_new_go cfg
    ⟨List.foldl (ringAppend (cfg.prevFrames + cfg.postFrames)) [] a,
      false, [], 0⟩ b0 hb0 rfl hemit1
  set s1 : SegState := ⟨List.foldl
    (ringAppend (cfg.prevFrames + cfg.postFrames)) [] a, false, [], 0⟩
    with hs1
  set cur1 : List Frame := ([] ++ pastOf cfg s1 b0) ++ [b0] with hcur1
  have hcur1len : cur1.length = cfg.prevFrames + 1 := by
    rw [hcur1]
    simp [hpastlen]
  -- phase B: the rest of the speech region
  have phB := feedFrames_speech_run cfg btail hbt (ringPush cfg s1 b0) cur1 0
    (by
      rw [hcur1len]
      simp only [List.length_cons] at hmax
      omega)
  set cur2 : List Frame := cur1 ++ btail with hcur2
  have hcur2len : cur2.length = cfg.prevFrames + 1 + btail.length := by
    rw [hcur2]
    simp [hcur1len]
  -- phase C: the post padding
  have phC := feedFrames_silence_pad cfg (c.take cfg.postFrames) hc1sil
    (List.foldl (ringAppend (cfg.prevFrames + cfg.postFrames))
      (ringPush cfg s1 b0) btail) cur2 0
    (by rw [hctake]; omega)
  set cur3 : List Frame := cur2 ++ c.take cfg.postFrames with hcur3
  -- the emitting silence frame
  have hpsx : ¬ (0 + (c.take cfg.postFrames).length + 1 ≤ cfg.postFrames) := by
    rw [hctake]
    omega
  have stE := stepFrame_si_col_emit cfg
    ⟨List.foldl (ringAppend (cfg.prevFrames + cfg.postFrames))
      (List.foldl (ringAppend (cfg.prevFrames + cfg.postFrames))
        (ringPush cfg s1 b0) btail) (c.take cfg.postFrames),
      true, cur3, 0 + (c.take cfg.postFrames).length⟩ x hxsil rfl hpsx
  -- phase D: trailing silence after the emission
  have phD := feedFrames_idle_silence cfg c2 hc2sil
    (ringPush cfg
      ⟨List.foldl (ringAppend (cfg.prevFrames + cfg.postFrames))
        (List.foldl (ringAppend (cfg.prevFrames + cfg.postFrames))
          (ringPush cfg s1 b0) btail) (c.take cfg.postFrames),
        true, cur3, 0 + (c.take cfg.postFrames).length⟩ x)
  -- assemble the run
  refine ⟨cur3, ?_, ?_⟩
  · unfold feedAll
    have hinput : a ++ b0 :: btail ++ c =
        a ++ (b0 :: (btail ++ (c.take cfg.postFrames ++ x :: c2))) := by
      conv_lhs => rw [hcsplit]
      simp [List.append_assoc]
    rw [hinput, feedFrames_append cfg a _ initSegState]
    have hinit : initSegState = (⟨[], false, [], 0⟩ : SegState) := rfl
    rw [hinit, phA]
    simp only []
    rw [show (feedFrames cfg s1
        (b0 :: (btail ++ (c.take cfg.postFrames ++ x :: c2)))) =
      ((feedFrames cfg (stepFrame cfg s1 b0).1
          (btail ++ (c.take cfg.postFrames ++ x :: c2))).1,
        (stepFrame cfg s1 b0).2 ++
          (feedFrames cfg (stepFrame cfg s1 b0).1
            (btail ++ (c.take cfg.postFrames ++ x :: c2))).2) from rfl]
    rw [st1]
    simp only []
    rw [feedFrames_append cfg btail _ _, phB]
    simp only []
    rw [feedFrames_append cfg (c.take cfg.postFrames) _ _, phC]
    simp only []
    rw [show (feedFrames cfg
        ⟨List.foldl (ringAppend (cfg.prevFrames + cfg.postFrames))
          (List.foldl (ringAppend (cfg.prevFrames + cfg.postFrames))
            (ringPush cfg s1 b0) btail) (c.take cfg.postFrames),
          true, cur2 ++ c.take cfg.postFrames,
          0 + (c.take cfg.postFrames).length⟩ (x :: c2)) =
      ((feedFrames cfg (stepFrame cfg _ x).1 c2).1,
        (stepFrame cfg _ x).2 ++ (feedFrames cfg (stepFrame cfg _ x).1 c2).2)
      from rfl]
    rw [stE]
    simp only []
    rw [phD]
    simp
  · rw [hcur3, List.length_append, hcur2len, hctake]
    simp only [List.length_cons]
    omega

/-- Witness for C4's amended emission law: two leading silence frames,
three speech frames and three trailing silence frames with
`prevFrames = postFrames = 2` yield one utterance of 3 + 2 + 2 frames. -/
theorem single_region_emission_amended_witness :
    ∃ u, feedAll ⟨2, 2, 100⟩
      [((0 : Nat), false), (1, false), (2, true), (3, true), (4, true),
        (5, false), (6, false), (7, false)] = [u] ∧
      u.length = 3 + 2 + 2 :=
  single_region_emission_amended ⟨2, 2, 100⟩
    [((0 : Nat), false), (1, false)]
    [((2 : Nat), true), (3, true), (4, true)]
    [((5 : Nat), false), (6, false), (7, false)]
    (by decide) (by decide) (by decide) (by decide) (by decide) (by decide)
    (by decide) (by decide)

/-- Counterexample to C4 as stated: one silence frame, one speech frame and
one trailing silence frame (a single speech region surrounded by silence,
`postFrames = 1`) make `feed` emit nothing at all — the segment stays open
waiting for `postFrames + 1` trailing silence frames — where the claim
demands exactly one utterance of `1 + 1 + min(1, 1) = 3` frames. -/
theorem single_region_claim_cex :
    feedAll ⟨1, 1, 200⟩ [((0 : Nat), false), (1, true), (2, false)] = [] ∧
    (feedAll ⟨1, 1, 200⟩ [((0 : Nat), false), (1, true), (2, false)]).length
      ≠ 1 := by
  decide

theorem expandLoop_inv (dur : Nat → Nat → Int) (minSec : Int) (n i : Nat) :
    ∀ (fuel lo hi : Nat), lo ≤ i → i ≤ hi →
      (expandLoop dur minSec n fuel lo hi).1 ≤ i ∧
      i ≤ (expandLoop dur minSec n fuel lo hi).2
  | 0, lo, hi, h1, h2 => ⟨h1, h2⟩
  | fuel + 1, lo, hi, h1, h2 => by
    simp only [expandLoop]
    split_ifs with hd hlo hbreak hstop hstop2 <;>
      first
      | exact ⟨by omega, by omega⟩
      | exact expandLoop_inv dur minSec n i fuel _ _ (by omega) (by omega)

theorem shrinkLoop_inv (tooBig : Nat → Nat → Bool) (i : Nat) :
    ∀ (fuel lo hi : Nat), lo ≤ i → i ≤ hi →
      (shrinkLoop tooBig i fuel lo hi).1 ≤ i ∧
      i ≤ (shrinkLoop tooBig i fuel lo hi).2
  | 0, lo, hi, h1, h2 => ⟨h1, h2⟩
  | fuel + 1, lo, hi, h1, h2 => by
    simp only [shrinkLoop]
    split_ifs with hg hside
    · exact shrinkLoop_inv tooBig i fuel (lo + 1) hi (by omega) h2
    · refine shrinkLoop_inv tooBig i fuel lo (hi - 1) h1 (by omega)
    · exact ⟨h1, h2⟩

/-- C5 (amended): `build_window` has no single-turn special case for a
trigger line without a parseable timestamp: the usual expansion (with the
3-seconds-per-turn estimate for timestamp-less spans) and contraction run
unchanged, so `lineRangeLow = lineRangeHigh = i` is not guaranteed.  What
holds is `lineRangeLow ≤ i ≤ lineRangeHigh`, and that the snippet's
anchor time is absent exactly when the trigger line has no timestamp. -/
theorem build_window_trigger_in_range (lines : List PLine) (i : Nat)
    (ngw : String) (minSec maxSec : Int) (maxTok : Nat)
    (hilen : i < lines.length) :
    (build_window lines i ngw minSec maxSec maxTok).lo_index ≤ i ∧
    i ≤ (build_window lines i ngw minSec maxSec maxTok).hi_index ∧
    ((lines.getD i ⟨none, "customer", ""⟩).ts = none →
      (build_window lines i ngw minSec maxSec maxTok).anchor_time = none) := by
  obtain ⟨e1, e2⟩ := expandLoop_inv (fun a b => window_duration lines a b)
    minSec lines.length i ((i - 2) + lines.length + 1) (i - 2)
    (min (lines.length - 1) (i + 2)) (by omega) (by omega)
  obtain ⟨f1, f2⟩ := shrinkLoop_inv
    (fun a b => decide (maxSec < window_duration lines a b)) i
    ((expandLoop (fun a b => window_duration lines a b) minSec lines.length
        ((i - 2) + lines.length + 1) (i - 2)
        (min (lines.length - 1) (i + 2))).2 -
      (expandLoop (fun a b => window_duration lines a b) minSec lines.length
        ((i - 2) + lines.length + 1) (i - 2)
        (min (lines.length - 1) (i + 2))).1 + 1)
    (expandLoop (fun a b => window_duration lines a b) minSec lines.length
      ((i - 2) + lines.length + 1) (i - 2)
      (min (lines.length - 1) (i + 2))).1
    (expandLoop (fun a b => window_duration lines a b) minSec lines.length
      ((i - 2) + lines.length + 1) (i - 2)
      (min (lines.length - 1) (i + 2))).2 e1 e2
  obtain ⟨g1, g2⟩ := shrinkLoop_inv
    (fun a b => decide (maxTok < tokens_in lines a b)) i
    ((shrinkLoop (fun a b => decide (maxSec < window_duration lines a b)) i
        ((expandLoop (fun a b => window_duration lines a b) minSec
            lines.length ((i - 2) + lines.length + 1) (i - 2)
            (min (lines.length - 1) (i + 2))).2 -
          (expandLoop (fun a b => window_duration lines a b) minSec
            lines.length ((i - 2) + lines.length + 1) (i - 2)
            (min (lines.length - 1) (i + 2))).1 + 1)
        (expandLoop (fun a b => window_duration lines a b) minSec
          lines.length ((i - 2) + lines.length + 1) (i - 2)
          (min (lines.length - 1) (i + 2))).1
        (expandLoop (fun a b => window_duration lines a b) minSec
          lines.length ((i - 2) + lines.length + 1) (i - 2)
          (min (lines.length - 1) (i + 2))).2).2 -
      (shrinkLoop (fun a b => decide (maxSec < window_duration lines a b)) i
        ((expandLoop (fun a b => window_duration lines a b) minSec
            lines.length ((i - 2) + lines.length + 1) (i - 2)
            (min (lines.length - 1) (i + 2))).2 -
          (expandLoop (fun a b => window_duration lines a b) minSec
            lines.length ((i - 2) + lines.length + 1) (i - 2)
            (min (lines.length - 1) (i + 2))).1 + 1)
        (expandLoop (fun a b => window_duration lines a b) minSec
          lines.length ((i - 2) + lines.length + 1) (i - 2)
          (min (lines.length - 1) (i + 2))).1
        (expandLoop (fun a b => window_duration lines a b) minSec
          lines.length ((i - 2) + lines.length + 1) (i - 2)
          (min (lines.length - 1) (i + 2))).2).1 + 1)
    (shrinkLoop (fun a b => decide (maxSec < window_duration lines a b)) i
      ((expandLoop (fun a b => window_duration lines a b) minSec
          lines.length ((i - 2) + lines.length + 1) (i - 2)
          (min (lines.length - 1) (i + 2))).2 -
        (expandLoop (fun a b => window_duration lines a b) minSec
          lines.length ((i - 2) + lines.length + 1) (i - 2)
          (min (lines.length - 1) (i + 2))).1 + 1)
      (expandLoop (fun a b => window_duration lines a b) minSec lines.length
        ((i - 2) + lines.length + 1) (i - 2)
        (min (lines.length - 1) (i + 2))).1
      (expandLoop (fun a b => window_duration lines a b) minSec lines.length
        ((i - 2) + lines.length + 1) (i - 2)
        (min (lines.length - 1) (i + 2))).2).1
    (shrinkLoop (fun a b => decide (maxSec < window_duration lines a b)) i
      ((expandLoop (fun a b => window_duration lines a b) minSec
          lines.length ((i - 2) + lines.length + 1) (i - 2)
          (min (lines.length - 1) (i + 2))).2 -
        (expandLoop (fun a b => window_duration lines a b) minSec
          lines.length ((i - 2) + lines.length + 1) (i - 2)
          (min (lines.length - 1) (i + 2))).1 + 1)
      (expandLoop (fun a b => window_duration lines a b) minSec lines.length
        ((i - 2) + lines.length + 1) (i - 2)
        (min (lines.length - 1) (i + 2))).1
      (expandLoop (fun a b => window_duration lines a b) minSec lines.length
        ((i - 2) + lines.length + 1) (i - 2)
        (min (lines.length - 1) (i + 2))).2).2 f1 f2
  refine ⟨?_, ?_, ?_⟩
  · simpa [build_window] using g1
  · simpa [build_window] using g2
  · intro hts
    simp [build_window]
    simpa using hts

/-- Witness for C5 on five timestamp-less turns with the trigger at index
2: the trigger stays inside the returned range and the anchor is absent. -/
theorem build_window_trigger_in_range_witness :
    (build_window [⟨none, "customer", "a"⟩, ⟨none, "customer", "b"⟩,
      ⟨none, "customer", "c"⟩, ⟨none, "customer", "d"⟩,
      ⟨none, "customer", "e"⟩] 2 "w" 12 30 512).lo_index ≤ 2 ∧
    2 ≤ (build_window [⟨none, "customer", "a"⟩, ⟨none, "customer", "b"⟩,
      ⟨none, "customer", "c"⟩, ⟨none, "customer", "d"⟩,
      ⟨none, "customer", "e"⟩] 2 "w" 12 30 512).hi_index ∧
    (((([⟨none, "customer", "a"⟩, ⟨none, "customer", "b"⟩,
      ⟨none, "customer", "c"⟩, ⟨none, "customer", "d"⟩,
      ⟨none, "customer", "e"⟩] : List PLine)).getD 2
        ⟨none, "customer", ""⟩).ts = none →
      (build_window [⟨none, "customer", "a"⟩, ⟨none, "customer", "b"⟩,
        ⟨none, "customer", "c"⟩, ⟨none, "customer", "d"⟩,
        ⟨none, "customer", "e"⟩] 2 "w" 12 30 512).anchor_time = none) :=
  build_window_trigger_in_range
    [⟨none, "customer", "a"⟩, ⟨none, "customer", "b"⟩,
      ⟨none, "customer", "c"⟩, ⟨none, "customer", "d"⟩,
      ⟨none, "customer", "e"⟩] 2 "w" 12 30 512 (by decide)

/-- Counterexample to C5 as stated: with five timestamp-less turns and the
trigger at index 2, `build_window` returns the default two-turns-each-side
window `[0, 4]`, not the single-turn snippet `[2, 2]` the claim demands. -/
theorem build_window_single_turn_cex :
    (build_window [⟨none, "customer", "a"⟩, ⟨none, "customer", "b"⟩,
      ⟨none, "customer", "c"⟩, ⟨none, "customer", "d"⟩,
      ⟨none, "customer", "e"⟩] 2 "w" 12 30 512).lo_index = 0 ∧
    (build_window [⟨none, "customer", "a"⟩, ⟨none, "customer", "b"⟩,
      ⟨none, "customer", "c"⟩, ⟨none, "customer", "d"⟩,
      ⟨none, "customer", "e"⟩] 2 "w" 12 30 512).hi_index = 4 ∧
    ¬ ((build_window [⟨none, "customer", "a"⟩, ⟨none, "customer", "b"⟩,
      ⟨none, "customer", "c"⟩, ⟨none, "customer", "d"⟩,
      ⟨none, "customer", "e"⟩] 2 "w" 12 30 512).lo_index = 2 ∧
      (build_window [⟨none, "customer", "a"⟩, ⟨none, "customer", "b"⟩,
        ⟨none, "customer", "c"⟩, ⟨none, "customer", "d"⟩,
        ⟨none, "customer", "e"⟩] 2 "w" 12 30 512).hi_index = 2) := by
  decide

end CaShield
